import Mathlib

/-!
Verification of the tiling-tree core of `src/plugins/tile/tree.hpp`
(wayfire `simple-tile` plugin).

The header under `src/` declares the data model (`gap_size_t`,
`tree_node_t`, `split_node_t`, `view_node_t`, `split_direction_t`) and the
operations (`set_geometry`, `set_gaps`, `add_child`, `remove_child`,
`flatten_tree`).  The method bodies live in `tree.cpp`, which is not part
of the source tree here, so the operational definitions below are modelled
from the specification document, faithful to its wording (proportional
integer redistribution along the split axis, `internal` gaps between
consecutive children, remainder absorbed by the last child, post-order
flattening which keeps the root).
-/

namespace WfTile

/-- `wf::geometry_t`: integer rectangle `(x, y, width, height)`. -/
structure geometry_t where
  x : Int
  y : Int
  width : Int
  height : Int
deriving DecidableEq, Repr

/-- `gap_size_t` from `tree.hpp`: per-edge outer gaps plus the internal
gap used between adjacent children of a split. -/
structure gap_size_t where
  left : Int
  right : Int
  top : Int
  bottom : Int
  internal : Int
deriving DecidableEq, Repr

/-- All-zero gaps (the default member values in `tree.hpp`). -/
def no_gaps : gap_size_t := ⟨0, 0, 0, 0, 0⟩

/-- `split_direction_t` from `tree.hpp`: `SPLIT_HORIZONTAL` or
`SPLIT_VERTICAL`. -/
inductive split_direction_t where
  | horizontal
  | vertical
deriving DecidableEq, Repr

/-- The tree of `tree.hpp`: a node is either a leaf (`view_node_t`,
holding one opaque payload identified by `payload`, the fullscreen flag
queried from the payload, and the rectangle last pushed to the payload as
`target`) or a split (`split_node_t`, with a direction and an ordered
list of children).  The parent back-reference of the C++ code is implicit
in this purely functional tree: a node's parent is the unique split whose
`children` list contains it. -/
inductive tree_node_t where
  | view (payload : Nat) (gaps : gap_size_t) (geometry : geometry_t)
      (fullscreen : Bool) (target : geometry_t)
  | split (direction : split_direction_t) (gaps : gap_size_t)
      (geometry : geometry_t) (children : List tree_node_t)

instance : Inhabited tree_node_t :=
  ⟨.split .horizontal no_gaps ⟨0, 0, 0, 0⟩ []⟩

/-- The geometry currently assigned to a node (`tree_node_t::geometry`). -/
def tree_node_t.geometry : tree_node_t → geometry_t
  | .view _ _ g _ _ => g
  | .split _ _ g _ => g

/-- The children of a node (`tree_node_t::children`; empty for leaves). -/
def tree_node_t.children : tree_node_t → List tree_node_t
  | .view _ _ _ _ _ => []
  | .split _ _ _ cs => cs

/-- The stored gap specification (`tree_node_t::get_gaps`). -/
def tree_node_t.get_gaps : tree_node_t → gap_size_t
  | .view _ gs _ _ _ => gs
  | .split _ gs _ _ => gs

/-- `tree_node_t::as_split_node`: the node itself when its dynamic type is
`split_node_t`, otherwise null (`none`). -/
def tree_node_t.as_split_node : tree_node_t → Option tree_node_t
  | .view p gs g f t => (fun _ => none) (.view p gs g f t : tree_node_t)
  | .split d gs g cs => some (.split d gs g cs)

/-- `tree_node_t::as_view_node`: the node itself when its dynamic type is
`view_node_t`, otherwise null (`none`). -/
def tree_node_t.as_view_node : tree_node_t → Option tree_node_t
  | .view p gs g f t => some (.view p gs g f t)
  | .split _ _ _ _ => none

/-- Whether the node is a `split_node_t`. -/
def tree_node_t.is_split : tree_node_t → Bool
  | .split _ _ _ _ => true
  | .view _ _ _ _ _ => false

/-- Whether the node is a `view_node_t`. -/
def tree_node_t.is_view : tree_node_t → Bool
  | .view _ _ _ _ _ => true
  | .split _ _ _ _ => false

/-- Extent of a rectangle along the split axis: width for horizontal
splits, height for vertical ones. -/
def geom_extent : split_direction_t → geometry_t → Int
  | .horizontal, g => g.width
  | .vertical, g => g.height

/-- Coordinate of a rectangle along the split axis. -/
def axis_coord : split_direction_t → geometry_t → Int
  | .horizontal, g => g.x
  | .vertical, g => g.y

/-- Leading outer gap along the split axis. -/
def axis_lead : split_direction_t → gap_size_t → Int
  | .horizontal, gs => gs.left
  | .vertical, gs => gs.top

/-- Extent of a node's current geometry along the split axis. -/
def node_extent (d : split_direction_t) (t : tree_node_t) : Int :=
  geom_extent d t.geometry

/-- Position of a node's current geometry along the split axis. -/
def node_axis_pos (d : split_direction_t) (t : tree_node_t) : Int :=
  axis_coord d t.geometry

/-- `split_node_t::calculate_splittable(geometry)`: the extent of the
given rectangle along the split axis, minus the outer gaps on that axis's
two edges. -/
def calculate_splittable (d : split_direction_t) (gs : gap_size_t)
    (g : geometry_t) : Int :=
  match d with
  | .horizontal => g.width - gs.left - gs.right
  | .vertical => g.height - gs.top - gs.bottom

/-- `split_node_t::get_child_geometry(child_pos, child_size)`: the
sub-rectangle of a child starting at offset `pos` (relative to the node)
with extent `size` along the split axis; the cross-axis position and
extent equal the parent's directly. -/
def get_child_geometry (d : split_direction_t) (g : geometry_t)
    (pos size : Int) : geometry_t :=
  match d with
  | .horizontal => ⟨g.x + pos, g.y, size, g.height⟩
  | .vertical => ⟨g.x, g.y + pos, g.width, size⟩

/-- Modelled from the spec: the proportional integer division used by
`split_node_t::recalculate_children` (whose body is in the missing
`tree.cpp`).  `distribute d ws` splits the distributable extent `d` among
entries with current extents (weights) `ws`, each entry receiving the
floor of its proportional share of the space remaining at its turn; the
last entry receives exactly the remaining space, so integer-rounding
remainders are absorbed by the last child and the sizes sum to `d`. -/
def distribute : Int → List Int → List Int
  | _, [] => []
  | d, [_] => [d]
  | d, w :: w2 :: ws =>
      let s := d * w / (w + (w2 :: ws).sum)
      s :: distribute (d - s) (w2 :: ws)

/-- Start offsets of consecutive children: each child starts where the
previous one ended, plus one `internal` gap. -/
def child_positions (internal : Int) : Int → List Int → List Int
  | _, [] => []
  | pos, s :: ss => pos :: child_positions internal (pos + s + internal) ss

/-- Modelled from the spec: the rectangles `recalculate_children` assigns,
for children of current extents (weights) `ws` inside `g`: the splittable
extent minus `internal * (N - 1)` is divided proportionally to `ws`, and
children are laid out in order starting after the leading outer gap, with
one `internal` gap between consecutive children. -/
def child_rects (d : split_direction_t) (gs : gap_size_t) (g : geometry_t)
    (ws : List Int) : List geometry_t :=
  let D := calculate_splittable d gs g - gs.internal * ((ws.length : Int) - 1)
  let sizes := distribute D ws
  List.zipWith (get_child_geometry d g) (child_positions gs.internal (axis_lead d gs) sizes) sizes

/-- `view_node_t::calculate_target_geometry`: the rectangle pushed to the
payload; gaps shrink the assigned rectangle on all four edges unless the
payload is fullscreen, in which case the rectangle is used verbatim. -/
def calculate_target_geometry (gs : gap_size_t) (fullscreen : Bool)
    (g : geometry_t) : geometry_t :=
  if fullscreen then g
  else ⟨g.x + gs.left, g.y + gs.top, g.width - gs.left - gs.right,
        g.height - gs.top - gs.bottom⟩

mutual

/-- Modelled from the spec: `set_geometry` (bodies in the missing
`tree.cpp`).  A leaf stores the rectangle and pushes its target geometry
to the payload; a split stores the rectangle and recalculates its
children: each child's new rectangle is taken from `child_rects` with the
children's current extents as weights, and is pushed recursively.  With
zero children the split just occupies the rectangle. -/
def set_geometry : tree_node_t → geometry_t → tree_node_t
  | .view p gs _ f _, g => .view p gs g f (calculate_target_geometry gs f g)
  | .split d gs _ cs, g =>
      .split d gs g (set_children cs (child_rects d gs g (cs.map (node_extent d))))

/-- Push the given rectangles onto the given children, in order. -/
def set_children : List tree_node_t → List geometry_t → List tree_node_t
  | [], _ => []
  | _ :: _, [] => []
  | c :: cs, r :: rs => set_geometry c r :: set_children cs rs

end

/-- Modelled from the spec: `split_node_t::add_child` (body in the
missing `tree.cpp`).  The child is inserted at `index` (or appended when
`index = -1`), and the node's children are recalculated over its current
rectangle.  The redistribution is proportional to the children's current
extents; the new child, whose old extent is meaningless, participates
with the average of the existing children's extents as its weight, so
that it ends up with roughly `1/(N+1)` of the splittable extent while
existing children shrink in proportion to their prior sizes.  The node is
given by its components `(d, gs, g, cs)`. -/
def add_child (d : split_direction_t) (gs : gap_size_t) (g : geometry_t)
    (cs : List tree_node_t) (c : tree_node_t) (index : Int) : tree_node_t :=
  let i : Nat := if index = -1 then cs.length else index.toNat
  let w : Int := (cs.map (node_extent d)).sum / (cs.length : Int)
  let cs' := cs.insertIdx i c
  let ws := (cs.map (node_extent d)).insertIdx i w
  .split d gs g (set_children cs' (child_rects d gs g ws))

/-- Modelled from the spec: `split_node_t::remove_child` (body in the
missing `tree.cpp`).  The child — identified here by its index `j`, the
pure-tree counterpart of the C++ pointer identity — is removed from the
children list and returned to the caller; the survivors are recalculated
over the node's current rectangle, proportionally to their pre-removal
extents.  Returns `none` when `j` is out of range (a caller contract
violation in the original). -/
def remove_child (d : split_direction_t) (gs : gap_size_t) (g : geometry_t)
    (cs : List tree_node_t) (j : Nat) : Option (tree_node_t × tree_node_t) :=
  match cs[j]? with
  | none => none
  | some c =>
      let cs' := cs.eraseIdx j
      some (c, .split d gs g (set_children cs' (child_rects d gs g (cs'.map (node_extent d)))))

/-- Modelled from the spec: the gap specification a split passes to one of
its children in `split_node_t::set_gaps`.  The child keeps the outer gap
only on the split-axis edges it shares with the split's own boundary
(`first`/`last`); on internal-facing edges the internal gap overrides the
corresponding edge, as stated in the header's comment; cross-axis edges
and `internal` itself are inherited unchanged. -/
def derived_gaps (d : split_direction_t) (gs : gap_size_t)
    (first last : Bool) : gap_size_t :=
  match d with
  | .horizontal =>
      { left := if first then gs.left else gs.internal
        right := if last then gs.right else gs.internal
        top := gs.top, bottom := gs.bottom, internal := gs.internal }
  | .vertical =>
      { top := if first then gs.top else gs.internal
        bottom := if last then gs.bottom else gs.internal
        left := gs.left, right := gs.right, internal := gs.internal }

mutual

/-- Modelled from the spec: `set_gaps` (bodies in the missing
`tree.cpp`).  A leaf stores the spec and does not recurse; a split stores
the spec and recursively passes each child its derived spec. -/
def set_gaps : tree_node_t → gap_size_t → tree_node_t
  | .view p _ g f t, gs => .view p gs g f t
  | .split d _ g cs, gs => .split d gs g (set_gaps_children d gs true cs)

/-- Pass derived gap specifications to a split's children in order; the
incoming flag tells whether the first element of the remaining list is
the split's first child. -/
def set_gaps_children : split_direction_t → gap_size_t → Bool →
    List tree_node_t → List tree_node_t
  | _, _, _, [] => []
  | d, gs, first, [c] => [set_gaps c (derived_gaps d gs first true)]
  | d, gs, first, c :: c2 :: cs =>
      set_gaps c (derived_gaps d gs first false) ::
        set_gaps_children d gs false (c2 :: cs)

end

mutual

/-- Whether any view (leaf) node occurs in the tree. -/
def has_view : tree_node_t → Bool
  | .view _ _ _ _ _ => true
  | .split _ _ _ cs => has_view_list cs

/-- Whether any view node occurs in any of the trees. -/
def has_view_list : List tree_node_t → Bool
  | [] => false
  | c :: cs => has_view c || has_view_list cs

end

mutual

/-- Modelled from the spec: the non-root part of `flatten_tree` (body in
the missing `tree.cpp`).  Post-order: children are flattened first; a
split whose flattened child list is a single split node is replaced by
that child.  Also returns whether the subtree contains any view. -/
def flatten : tree_node_t → tree_node_t × Bool
  | .view p gs g f t => (.view p gs g f t, true)
  | .split d gs g cs =>
      let q := flatten_list cs
      match q.1 with
      | [.split d2 gs2 g2 cs2] => (.split d2 gs2 g2 cs2, q.2)
      | _ => (.split d gs g q.1, q.2)

/-- Flatten each tree in the list; also returns whether any of them
contains a view. -/
def flatten_list : List tree_node_t → List tree_node_t × Bool
  | [] => ([], false)
  | c :: cs =>
      let a := flatten c
      let b := flatten_list cs
      (a.1 :: b.1, a.2 || b.2)

end

/-- Modelled from the spec: `flatten_tree(root)` (body in the missing
`tree.cpp`).  The children are flattened post-order, but the root itself
is kept as a split node unconditionally, even with 0 or 1 children.
Returns the new tree together with the C++ return value: whether any
view remains in the tree. -/
def flatten_tree : tree_node_t → tree_node_t × Bool
  | .view p gs g f t => (.view p gs g f t, true)
  | .split d gs g cs =>
      let q := flatten_list cs
      (.split d gs g q.1, q.2)

/-- Exact lateral tiling of a list of children along the split axis,
starting at absolute position `pos`: each child starts exactly where the
previous one ended plus one `internal` gap (hence no overlap and no
leftover slack between consecutive children). -/
def tiled_from (d : split_direction_t) (internal : Int) :
    Int → List tree_node_t → Prop
  | _, [] => True
  | pos, c :: cs =>
      node_axis_pos d c = pos ∧
        tiled_from d internal (pos + node_extent d c + internal) cs

/-- The tiling invariant of a split node `(d, gs, g)` over a child list:
the children's extents along the split axis sum (with the internal gaps
between consecutive children) to the splittable extent, and the children
tile the axis interval exactly, starting after the leading outer gap. -/
def tiling_ok (d : split_direction_t) (gs : gap_size_t) (g : geometry_t)
    (cs : List tree_node_t) : Prop :=
  (cs.map (node_extent d)).sum
      + gs.internal * ((cs.length : Int) - 1) = calculate_splittable d gs g
    ∧ tiled_from d gs.internal (axis_coord d g + axis_lead d gs) cs

theorem set_geometry_geometry (t : tree_node_t) (g : geometry_t) :
    (set_geometry t g).geometry = g := by
  cases t <;> simp [set_geometry, tree_node_t.geometry]

theorem node_extent_set_geometry (d : split_direction_t) (t : tree_node_t)
    (g : geometry_t) : node_extent d (set_geometry t g) = geom_extent d g := by
  rw [node_extent, set_geometry_geometry]

theorem node_axis_pos_set_geometry (d : split_direction_t) (t : tree_node_t)
    (g : geometry_t) :
    node_axis_pos d (set_geometry t g) = axis_coord d g := by
  rw [node_axis_pos, set_geometry_geometry]

theorem geom_extent_get_child_geometry (d : split_direction_t)
    (g : geometry_t) (pos size : Int) :
    geom_extent d (get_child_geometry d g pos size) = size := by
  cases d <;> simp [geom_extent, get_child_geometry]

theorem axis_coord_get_child_geometry (d : split_direction_t)
    (g : geometry_t) (pos size : Int) :
    axis_coord d (get_child_geometry d g pos size) = axis_coord d g + pos := by
  cases d <;> simp [axis_coord, get_child_geometry]

theorem distribute_length (ws : List Int) :
    ∀ D : Int, (distribute D ws).length = ws.length := by
  induction ws with
  | nil => intro D; simp [distribute]
  | cons w ws ih =>
      intro D
      cases ws with
      | nil => simp [distribute]
      | cons w2 ws' => simp [distribute, ih]

theorem distribute_sum (ws : List Int) (hne : ws ≠ []) :
    ∀ D : Int, (distribute D ws).sum = D := by
  induction ws with
  | nil => exact absurd rfl hne
  | cons w ws ih =>
      intro D
      cases ws with
      | nil => simp [distribute]
      | cons w2 ws' =>
          have := ih (by simp)
          simp only [distribute, List.sum_cons, this]
          ring

theorem set_children_length (cs : List tree_node_t) :
    ∀ rs : List geometry_t, cs.length ≤ rs.length →
      (set_children cs rs).length = cs.length := by
  induction cs with
  | nil => intro rs _; simp [set_children]
  | cons c cs ih =>
      intro rs h
      cases rs with
      | nil => simp at h
      | cons r rs => simpa [set_children] using ih rs (by simpa using h)

theorem set_children_map_extent (d : split_direction_t)
    (cs : List tree_node_t) :
    ∀ rs : List geometry_t, cs.length ≤ rs.length →
      (set_children cs rs).map (node_extent d)
        = (rs.take cs.length).map (geom_extent d) := by
  induction cs with
  | nil => intro rs _; simp [set_children]
  | cons c cs ih =>
      intro rs h
      cases rs with
      | nil => simp at h
      | cons r rs =>
          simpa [set_children, node_extent_set_geometry] using
            ih rs (by simpa using h)

theorem set_children_getElem? (cs : List tree_node_t) :
    ∀ (rs : List geometry_t) (i : Nat) (c : tree_node_t) (r : geometry_t),
      cs[i]? = some c → rs[i]? = some r →
      (set_children cs rs)[i]? = some (set_geometry c r) := by
  induction cs with
  | nil => intro rs i c r hc _; simp at hc
  | cons c0 cs ih =>
      intro rs i c r hc hr
      cases rs with
      | nil => simp at hr
      | cons r0 rs =>
          cases i with
          | zero =>
              simp only [List.getElem?_cons_zero, Option.some_inj] at hc hr
              subst hc; subst hr
              simp [set_children]
          | succ j =>
              simp only [List.getElem?_cons_succ] at hc hr
              simpa [set_children] using ih rs j c r hc hr

theorem recalc_core (d : split_direction_t) (g : geometry_t) (internal : Int)
    (cs : List tree_node_t) :
    ∀ (sizes : List Int) (p : Int), sizes.length = cs.length →
      (set_children cs
          (List.zipWith (get_child_geometry d g)
            (child_positions internal p sizes) sizes)).map (node_extent d)
          = sizes
        ∧ tiled_from d internal (axis_coord d g + p)
            (set_children cs
              (List.zipWith (get_child_geometry d g)
                (child_positions internal p sizes) sizes)) := by
  induction cs with
  | nil =>
      intro sizes p h
      rw [List.length_nil, List.length_eq_zero] at h
      subst h
      simp [set_children, child_positions, tiled_from]
  | cons c cs ih =>
      intro sizes p h
      cases sizes with
      | nil => simp at h
      | cons s ss =>
          have hlen : ss.length = cs.length := by simpa using h
          obtain ⟨ih1, ih2⟩ := ih ss (p + s + internal) hlen
          refine ⟨?_, ?_, ?_⟩
          · simp only [child_positions, List.zipWith_cons_cons, set_children,
              List.map_cons, node_extent_set_geometry,
              geom_extent_get_child_geometry, ih1]
          · simp only [child_positions, List.zipWith_cons_cons, set_children,
              node_axis_pos_set_geometry, axis_coord_get_child_geometry]
          · simp only [child_positions, List.zipWith_cons_cons, set_children,
              node_extent_set_geometry, geom_extent_get_child_geometry]
            have : axis_coord d g + p + s + internal
                = axis_coord d g + (p + s + internal) := by ring
            rw [this]
            exact ih2

theorem recalculate_tiling_ok (d : split_direction_t) (gs : gap_size_t)
    (g : geometry_t) (cs : List tree_node_t) (ws : List Int)
    (hlen : ws.length = cs.length) (hne : cs ≠ []) :
    tiling_ok d gs g (set_children cs (child_rects d gs g ws)) := by
  have hws : ws ≠ [] := by
    intro h
    apply hne
    rw [h] at hlen
    exact (List.length_eq_zero.mp hlen.symm)
  have hdl : (distribute (calculate_splittable d gs g
      - gs.internal * ((ws.length : Int) - 1)) ws).length = cs.length := by
    rw [distribute_length]; exact hlen
  obtain ⟨h1, h2⟩ := recalc_core d g gs.internal cs
    (distribute (calculate_splittable d gs g
      - gs.internal * ((ws.length : Int) - 1)) ws) (axis_lead d gs) hdl
  constructor
  · simp only [child_rects]
    rw [h1, distribute_sum ws hws]
    have hlc : ((set_children cs
        (List.zipWith (get_child_geometry d g)
          (child_positions gs.internal (axis_lead d gs)
            (distribute (calculate_splittable d gs g
              - gs.internal * ((ws.length : Int) - 1)) ws))
          (distribute (calculate_splittable d gs g
            - gs.internal * ((ws.length : Int) - 1)) ws))).length : Int)
        = (ws.length : Int) := by
      rw [← h1, List.length_map] at hdl
      rw [hdl, hlen]
    rw [hlc]
    ring
  · simp only [child_rects]
    exact h2

/-- Claim C1, as stated, fails for child count `N = 0`: for a split node
with no children, `set_geometry` leaves the (empty) child list untouched,
and the claimed equation `sum of extents + internal * (N - 1) =
splittable` reads `0 + 0 * (0 - 1) = 100` on a 100-wide gap-free split,
which is false. -/
theorem claim1_counterexample :
    ¬ ((((set_geometry (.split .horizontal no_gaps ⟨0, 0, 100, 100⟩ [])
            ⟨0, 0, 100, 100⟩).children.map (node_extent .horizontal)).sum
        + no_gaps.internal
          * (((set_geometry (.split .horizontal no_gaps ⟨0, 0, 100, 100⟩ [])
                ⟨0, 0, 100, 100⟩).children.length : Int) - 1)
        = calculate_splittable .horizontal no_gaps ⟨0, 0, 100, 100⟩)) := by
  simp [set_geometry, set_children, child_rects, distribute, child_positions,
    tree_node_t.children, calculate_splittable, no_gaps]

/-- Claim C1 (amended to child counts `N ≥ 1`): for every split node,
after `set_geometry`, `add_child` or `remove_child` completes, the sum of
the children's extents along the split axis plus `internal * (N - 1)`
equals the node's splittable extent, and the children tile the axis
interval exactly (each child starts exactly where the previous one ended
plus one `internal` gap — no overlap, no leftover slack), whenever the
resulting child count `N` is at least 1.  Each operation carries only
the hypotheses it needs for that: `set_geometry` a nonempty child list
(`N ≥ 1` afterwards), `add_child` a valid insertion index (the result
then has `N ≥ 1` children even when the split was empty), and
`remove_child` an in-range child of a split with at least two children
(`N ≥ 1` survivors). -/
theorem claim1_tiling_invariant (d : split_direction_t) (gs : gap_size_t)
    (g g0 : geometry_t) (cs : List tree_node_t) (c : tree_node_t)
    (index : Int) (j : Nat) :
    (cs ≠ [] →
        tiling_ok d gs g (set_geometry (.split d gs g0 cs) g).children)
      ∧ ((index = -1 ∨ index.toNat ≤ cs.length) →
          tiling_ok d gs g (add_child d gs g cs c index).children)
      ∧ (2 ≤ cs.length → j < cs.length →
          ∃ pr, remove_child d gs g cs j = some pr
            ∧ tiling_ok d gs g pr.2.children) := by
  refine ⟨?_, ?_, ?_⟩
  · intro hcs
    simp only [set_geometry, tree_node_t.children]
    exact recalculate_tiling_ok d gs g cs (cs.map (node_extent d))
      (List.length_map _ _) hcs
  · intro hidx
    simp only [add_child, tree_node_t.children]
    have hi : (if index = -1 then cs.length else index.toNat) ≤ cs.length := by
      rcases hidx with h | h
      · simp [h]
      · rcases eq_or_ne index (-1) with h' | h' <;> simp [h', h]
    apply recalculate_tiling_ok
    · rw [List.length_insertIdx _ _ (by simpa using hi),
        List.length_insertIdx _ _ hi, List.length_map]
    · intro h
      have := congrArg List.length h
      rw [List.length_insertIdx _ _ hi] at this
      simp at this
  · intro h2 hj
    refine ⟨(cs[j], .split d gs g (set_children (cs.eraseIdx j)
      (child_rects d gs g ((cs.eraseIdx j).map (node_extent d))))), ?_, ?_⟩
    · simp only [remove_child, List.getElem?_eq_getElem hj]
    · simp only [tree_node_t.children]
      have hlen : (cs.eraseIdx j).length + 1 = cs.length :=
        List.length_eraseIdx_add_one hj
      apply recalculate_tiling_ok
      · exact List.length_map _ _
      · intro h
        rw [h] at hlen
        simp at hlen
        omega

/-- Concrete instance of the amended claim C1, exercising all three
operations on a gap-free 1000x500 horizontal split: `set_geometry` over
two 500-wide children, `add_child` appending a third child, and
`remove_child` of the first child (one survivor, `N = 1`). -/
theorem claim1_tiling_invariant_witness :
    (([(.view 1 no_gaps ⟨0, 0, 500, 500⟩ false ⟨0, 0, 500, 500⟩),
       (.view 2 no_gaps ⟨500, 0, 500, 500⟩ false ⟨500, 0, 500, 500⟩)]
        : List tree_node_t) ≠ [])
    ∧ tiling_ok .horizontal no_gaps ⟨0, 0, 1000, 500⟩
        (set_geometry (.split .horizontal no_gaps ⟨0, 0, 1000, 500⟩
          [.view 1 no_gaps ⟨0, 0, 500, 500⟩ false ⟨0, 0, 500, 500⟩,
           .view 2 no_gaps ⟨500, 0, 500, 500⟩ false ⟨500, 0, 500, 500⟩])
          ⟨0, 0, 1000, 500⟩).children
    ∧ tiling_ok .horizontal no_gaps ⟨0, 0, 1000, 500⟩
        (add_child .horizontal no_gaps ⟨0, 0, 1000, 500⟩
          [.view 1 no_gaps ⟨0, 0, 500, 500⟩ false ⟨0, 0, 500, 500⟩,
           .view 2 no_gaps ⟨500, 0, 500, 500⟩ false ⟨500, 0, 500, 500⟩]
          (.view 3 no_gaps ⟨0, 0, 500, 500⟩ false ⟨0, 0, 500, 500⟩)
          (-1)).children
    ∧ ∃ pr, remove_child .horizontal no_gaps ⟨0, 0, 1000, 500⟩
          [.view 1 no_gaps ⟨0, 0, 500, 500⟩ false ⟨0, 0, 500, 500⟩,
           .view 2 no_gaps ⟨500, 0, 500, 500⟩ false ⟨500, 0, 500, 500⟩] 0
          = some pr
        ∧ tiling_ok .horizontal no_gaps ⟨0, 0, 1000, 500⟩ pr.2.children :=
  ⟨by simp,
    (claim1_tiling_invariant .horizontal no_gaps ⟨0, 0, 1000, 500⟩
      ⟨0, 0, 1000, 500⟩
      [.view 1 no_gaps ⟨0, 0, 500, 500⟩ false ⟨0, 0, 500, 500⟩,
       .view 2 no_gaps ⟨500, 0, 500, 500⟩ false ⟨500, 0, 500, 500⟩]
      (.view 3 no_gaps ⟨0, 0, 500, 500⟩ false ⟨0, 0, 500, 500⟩)
      (-1) 0).1 (by simp),
    (claim1_tiling_invariant .horizontal no_gaps ⟨0, 0, 1000, 500⟩
      ⟨0, 0, 1000, 500⟩
      [.view 1 no_gaps ⟨0, 0, 500, 500⟩ false ⟨0, 0, 500, 500⟩,
       .view 2 no_gaps ⟨500, 0, 500, 500⟩ false ⟨500, 0, 500, 500⟩]
      (.view 3 no_gaps ⟨0, 0, 500, 500⟩ false ⟨0, 0, 500, 500⟩)
      (-1) 0).2.1 (Or.inl rfl),
    (claim1_tiling_invariant .horizontal no_gaps ⟨0, 0, 1000, 500⟩
      ⟨0, 0, 1000, 500⟩
      [.view 1 no_gaps ⟨0, 0, 500, 500⟩ false ⟨0, 0, 500, 500⟩,
       .view 2 no_gaps ⟨500, 0, 500, 500⟩ false ⟨500, 0, 500, 500⟩]
      (.view 3 no_gaps ⟨0, 0, 500, 500⟩ false ⟨0, 0, 500, 500⟩)
      (-1) 0).2.2 (by decide) (by decide)⟩

theorem child_positions_length (internal : Int) :
    ∀ (ss : List Int) (p : Int), (child_positions internal p ss).length = ss.length := by
  intro ss
  induction ss with
  | nil => intro p; simp [child_positions]
  | cons s ss ih => intro p; simp [child_positions, ih]

theorem child_rects_length (d : split_direction_t) (gs : gap_size_t)
    (g : geometry_t) (ws : List Int) :
    (child_rects d gs g ws).length = ws.length := by
  simp [child_rects, child_positions_length, distribute_length]

theorem getLast?_eq_sum_sub_dropLast (l : List Int) (hne : l ≠ []) :
    l.getLast? = some (l.sum - l.dropLast.sum) := by
  rw [List.getLast?_eq_getLast l hne]
  congr 1
  have h := List.dropLast_append_getLast hne
  have hsum := congrArg List.sum h
  rw [List.sum_append, List.sum_cons, List.sum_nil] at hsum
  omega

/-- Claim C4: in the proportional division of `recalculate_children`
(all integer arithmetic), the rounding remainder is absorbed by the last
child: for a split node with `N ≥ 1` children, after `set_geometry` the
last child's extent equals the distributable extent minus the extents of
the other children, so the sum of the child extents plus
`internal * (N - 1)` equals the splittable extent exactly.  The division
is a total function: remainders are never reported as errors. -/
theorem claim4_remainder_absorbed (d : split_direction_t) (gs : gap_size_t)
    (g g0 : geometry_t) (cs : List tree_node_t) (hne : cs ≠ []) :
    ((set_geometry (.split d gs g0 cs) g).children.map (node_extent d)).sum
        + gs.internal
          * (((set_geometry (.split d gs g0 cs) g).children.length : Int) - 1)
        = calculate_splittable d gs g
      ∧ ((set_geometry (.split d gs g0 cs) g).children.map (node_extent d)).getLast?
        = some (calculate_splittable d gs g
            - gs.internal
              * (((set_geometry (.split d gs g0 cs) g).children.length : Int) - 1)
            - ((set_geometry (.split d gs g0 cs) g).children.map
                (node_extent d)).dropLast.sum) := by
  have hok := recalculate_tiling_ok d gs g cs (cs.map (node_extent d))
    (List.length_map _ _) hne
  have hch : (set_geometry (.split d gs g0 cs) g).children
      = set_children cs (child_rects d gs g (cs.map (node_extent d))) := by
    simp [set_geometry, tree_node_t.children]
  rw [hch]
  obtain ⟨h1, _⟩ := hok
  refine ⟨h1, ?_⟩
  have hlen : (set_children cs (child_rects d gs g (cs.map (node_extent d)))).length
      = cs.length := by
    apply set_children_length
    rw [child_rects_length, List.length_map]
  have hmne : (set_children cs (child_rects d gs g (cs.map (node_extent d)))).map
      (node_extent d) ≠ [] := by
    intro h
    have := congrArg List.length h
    rw [List.length_map, hlen] at this
    exact hne (List.length_eq_zero.mp this)
  rw [getLast?_eq_sum_sub_dropLast _ hmne]
  congr 1
  omega

/-- Concrete instance of claim C4: resizing a gap-free horizontal split
with three equal children to width 1000 gives extents `[333, 333, 334]`;
the last child absorbs the remainder and the sum is exactly 1000. -/
theorem claim4_remainder_absorbed_witness :
    (([(.view 1 no_gaps ⟨0, 0, 300, 500⟩ false ⟨0, 0, 300, 500⟩),
       (.view 2 no_gaps ⟨300, 0, 300, 500⟩ false ⟨300, 0, 300, 500⟩),
       (.view 3 no_gaps ⟨600, 0, 300, 500⟩ false ⟨600, 0, 300, 500⟩)]
        : List tree_node_t) ≠ [])
    ∧ (((set_geometry (.split .horizontal no_gaps ⟨0, 0, 900, 500⟩
          [.view 1 no_gaps ⟨0, 0, 300, 500⟩ false ⟨0, 0, 300, 500⟩,
           .view 2 no_gaps ⟨300, 0, 300, 500⟩ false ⟨300, 0, 300, 500⟩,
           .view 3 no_gaps ⟨600, 0, 300, 500⟩ false ⟨600, 0, 300, 500⟩])
          ⟨0, 0, 1000, 500⟩).children.map (node_extent .horizontal)).sum
        + no_gaps.internal
          * (((set_geometry (.split .horizontal no_gaps ⟨0, 0, 900, 500⟩
              [.view 1 no_gaps ⟨0, 0, 300, 500⟩ false ⟨0, 0, 300, 500⟩,
               .view 2 no_gaps ⟨300, 0, 300, 500⟩ false ⟨300, 0, 300, 500⟩,
               .view 3 no_gaps ⟨600, 0, 300, 500⟩ false ⟨600, 0, 300, 500⟩])
              ⟨0, 0, 1000, 500⟩).children.length : Int) - 1)
        = calculate_splittable .horizontal no_gaps ⟨0, 0, 1000, 500⟩) :=
  ⟨by simp,
    (claim4_remainder_absorbed .horizontal no_gaps ⟨0, 0, 1000, 500⟩
      ⟨0, 0, 900, 500⟩
      [.view 1 no_gaps ⟨0, 0, 300, 500⟩ false ⟨0, 0, 300, 500⟩,
       .view 2 no_gaps ⟨300, 0, 300, 500⟩ false ⟨300, 0, 300, 500⟩,
       .view 3 no_gaps ⟨600, 0, 300, 500⟩ false ⟨600, 0, 300, 500⟩]
      (by simp)).1⟩

/-- Claim C9: zero-child and one-child splits are handled degenerate
layouts, not errors.  With zero children `set_geometry` stores the
rectangle and leaves the (empty) child list untouched; with one child,
that child receives the full available geometry minus the outer gaps
along the split axis (the cross-axis position and extent equal the
parent's directly, per the layout step), i.e. its extent along the split
axis is exactly the splittable extent. -/
theorem claim9_degenerate_splits (d : split_direction_t) (gs : gap_size_t)
    (g g0 : geometry_t) (c : tree_node_t) :
    set_geometry (.split d gs g0 []) g = .split d gs g []
      ∧ set_geometry (.split d gs g0 [c]) g
        = .split d gs g
            [set_geometry c (get_child_geometry d g (axis_lead d gs)
              (calculate_splittable d gs g))]
      ∧ node_extent d (set_geometry c (get_child_geometry d g (axis_lead d gs)
          (calculate_splittable d gs g))) = calculate_splittable d gs g := by
  refine ⟨?_, ?_, ?_⟩
  · simp [set_geometry, set_children]
  · simp [set_geometry, set_children, child_rects, distribute, child_positions]
  · rw [node_extent_set_geometry, geom_extent_get_child_geometry]

/-- Claim C5: for a non-fullscreen leaf with gaps `{l, r, t, b, _}`,
`set_geometry` with rectangle `(x, y, w, h)` stores the rectangle and
pushes the target rectangle `(x+l, y+t, w-l-r, h-t-b)` to the payload;
for a fullscreen leaf the gaps are bypassed and the assigned rectangle is
pushed verbatim. -/
theorem claim5_leaf_geometry (p : Nat) (gs : gap_size_t) (g0 t0 g' : geometry_t)
    (x y w h : Int) :
    set_geometry (.view p gs g0 false t0) ⟨x, y, w, h⟩
      = .view p gs ⟨x, y, w, h⟩ false
          ⟨x + gs.left, y + gs.top, w - gs.left - gs.right, h - gs.top - gs.bottom⟩
      ∧ set_geometry (.view p gs g0 true t0) g' = .view p gs g' true g' := by
  constructor <;> simp [set_geometry, calculate_target_geometry]

/-- Claim C10: the downcast helpers are exhaustive and mutually
exclusive: `as_split_node` returns the node itself exactly when it is a
split node and null otherwise, `as_view_node` returns the node itself
exactly when it is a view node and null otherwise, and the two kinds are
complementary, so the two results are never both non-null. -/
theorem claim10_downcast_helpers (t : tree_node_t) :
    t.as_split_node = (if t.is_split then some t else none)
      ∧ t.as_view_node = (if t.is_view then some t else none)
      ∧ t.is_view = !t.is_split := by
  cases t <;>
    simp [tree_node_t.as_split_node, tree_node_t.as_view_node,
      tree_node_t.is_split, tree_node_t.is_view]

theorem set_gaps_children_getElem? (d : split_direction_t) (gs : gap_size_t) :
    ∀ (cs : List tree_node_t) (first : Bool) (i : Nat),
      (set_gaps_children d gs first cs)[i]?
        = (cs[i]?).map (fun c => set_gaps c
            (derived_gaps d gs (if i = 0 then first else false)
              (decide (i + 1 = cs.length)))) := by
  intro cs
  induction cs with
  | nil => intro first i; simp [set_gaps_children]
  | cons c cs ih =>
      intro first i
      cases cs with
      | nil =>
          cases i with
          | zero => simp [set_gaps_children]
          | succ j => simp [set_gaps_children]
      | cons c2 cs' =>
          cases i with
          | zero =>
              have hlen : decide (0 + 1 = (c :: c2 :: cs').length) = false := by
                simp
              rw [hlen]
              simp [set_gaps_children]
          | succ j =>
              have hstep : (set_gaps_children d gs first (c :: c2 :: cs'))[j + 1]?
                  = (set_gaps_children d gs false (c2 :: cs'))[j]? := by
                simp [set_gaps_children]
              rw [hstep, ih false j]
              have hdec : decide (j + 1 = (c2 :: cs').length)
                  = decide (j + 1 + 1 = (c :: c2 :: cs').length) := by
                rw [decide_eq_decide]
                simp
              rw [hdec]
              have hif : (if j = 0 then false else false)
                  = (if j + 1 = 0 then first else false) := by
                simp
              rw [hif]
              simp

/-- Claim C8: `set_gaps` on a split node stores the spec on the node and
recursively passes each child a derived spec: the child keeps the outer
gap on a split-axis edge only when it is the first (respectively last)
child, i.e. only on the edges it shares with the split's own boundary —
on internal-facing edges the internal gap takes the outer gap's place —
and every child inherits the spec's `internal` as its own `internal`.
Leaves store the spec without recursing. -/
theorem claim8_set_gaps (d : split_direction_t) (g0 gs : gap_size_t)
    (g geo : geometry_t) (cs : List tree_node_t) (i p : Nat) (f : Bool)
    (t : geometry_t) :
    set_gaps (.view p g0 geo f t) gs = .view p gs geo f t
      ∧ (set_gaps (.split d g0 g cs) gs).get_gaps = gs
      ∧ (set_gaps (.split d g0 g cs) gs).children[i]?
        = (cs[i]?).map (fun c => set_gaps c
            (derived_gaps d gs (decide (i = 0)) (decide (i + 1 = cs.length))))
      ∧ (derived_gaps d gs (decide (i = 0)) (decide (i + 1 = cs.length))).internal
        = gs.internal := by
  refine ⟨?_, ?_, ?_, ?_⟩
  · simp [set_gaps]
  · simp [set_gaps, tree_node_t.get_gaps]
  · have h := set_gaps_children_getElem? d gs cs true i
    have hif : (if i = 0 then true else false) = decide (i = 0) := by
      rcases eq_or_ne i 0 with h0 | h0 <;> simp [h0]
    rw [hif] at h
    simpa [set_gaps, tree_node_t.children] using h
  · cases d <;> simp [derived_gaps]

mutual

theorem flatten_idem (t : tree_node_t) : flatten (flatten t).1 = flatten t := by
  cases t with
  | view p gs g f tg => simp [flatten]
  | split d gs g cs =>
      have hl := flatten_list_idem cs
      rcases hq : flatten_list cs with ⟨l, b⟩
      rw [hq] at hl
      simp only [flatten, hq]
      rcases l with _ | ⟨c1, l1⟩
      · simpa [flatten, flatten_list] using hl
      · rcases c1 with _ | ⟨d2, gs2, g2, cs2⟩
        · rcases l1 with _ | ⟨c2, l2⟩
          · simpa [flatten, flatten_list] using hl
          · simpa [flatten, flatten_list] using hl
        · rcases l1 with _ | ⟨c2, l2⟩
          · simp only []
            have : flatten_list [tree_node_t.split d2 gs2 g2 cs2]
                = ([tree_node_t.split d2 gs2 g2 cs2], b) := hl
            simp only [flatten_list] at this
            have h1 : (flatten (tree_node_t.split d2 gs2 g2 cs2)).1
                = tree_node_t.split d2 gs2 g2 cs2 := by
              have := congrArg Prod.fst this
              simpa using this
            have h2 : (flatten (tree_node_t.split d2 gs2 g2 cs2)).2 = b := by
              have := congrArg Prod.snd this
              simpa using this
            exact Prod.ext h1 h2
          · simpa [flatten, flatten_list] using hl

theorem flatten_list_idem (l : List tree_node_t) :
    flatten_list (flatten_list l).1 = flatten_list l := by
  cases l with
  | nil => simp [flatten_list]
  | cons c cs =>
      have hc := flatten_idem c
      have hcs := flatten_list_idem cs
      simp only [flatten_list]
      rw [hc, hcs]

end

mutual

theorem flatten_returns_has_view (t : tree_node_t) :
    (flatten t).2 = has_view (flatten t).1 := by
  cases t with
  | view p gs g f tg => simp [flatten, has_view]
  | split d gs g cs =>
      have hl := flatten_list_returns_has_view cs
      rcases hq : flatten_list cs with ⟨l, b⟩
      rw [hq] at hl
      simp only at hl
      simp only [flatten, hq]
      rcases l with _ | ⟨c1, l1⟩
      · simpa [has_view, has_view_list] using hl
      · rcases c1 with _ | ⟨d2, gs2, g2, cs2⟩
        · rcases l1 with _ | ⟨c2, l2⟩ <;>
            simpa [has_view, has_view_list] using hl
        · rcases l1 with _ | ⟨c2, l2⟩
          · simpa [has_view, has_view_list] using hl
          · simpa [has_view, has_view_list] using hl

theorem flatten_list_returns_has_view (l : List tree_node_t) :
    (flatten_list l).2 = has_view_list (flatten_list l).1 := by
  cases l with
  | nil => simp [flatten_list, has_view_list]
  | cons c cs =>
      have hc := flatten_returns_has_view c
      have hcs := flatten_list_returns_has_view cs
      simp only [flatten_list, has_view_list]
      rw [hc, hcs]

end

theorem flatten_split_is_split (d : split_direction_t) (gs : gap_size_t)
    (g : geometry_t) (cs : List tree_node_t) :
    (flatten (.split d gs g cs)).1.is_split = true := by
  rcases hq : flatten_list cs with ⟨l, b⟩
  simp only [flatten, hq]
  rcases l with _ | ⟨c1, l1⟩
  · simp [tree_node_t.is_split]
  · rcases c1 with _ | ⟨d2, gs2, g2, cs2⟩
    · rcases l1 with _ | ⟨c2, l2⟩ <;> simp [tree_node_t.is_split]
    · rcases l1 with _ | ⟨c2, l2⟩ <;> simp [tree_node_t.is_split]

/-- Claim C6: `flatten_tree` is idempotent — applying it twice yields the
tree obtained by applying it once; a split node whose single (flattened)
child is itself a split node is replaced by that child during the
post-order pass; and the root keeps its split-node shape in all cases,
including with 0 or 1 children (in particular for the empty tree). -/
theorem claim6_flatten_idempotent (T : tree_node_t) (d : split_direction_t)
    (gs : gap_size_t) (g : geometry_t) (cs : List tree_node_t)
    (c : tree_node_t) (hc : c.is_split = true) :
    flatten_tree ((flatten_tree T).1) = flatten_tree T
      ∧ ((flatten_tree (.split d gs g cs)).1).is_split = true
      ∧ (flatten (.split d gs g [c])).1 = (flatten c).1 := by
  refine ⟨?_, ?_, ?_⟩
  · cases T with
    | view p gs0 g0 f tg => simp [flatten_tree]
    | split d0 gs0 g0 cs0 =>
        have hl := flatten_list_idem cs0
        rcases hq : flatten_list cs0 with ⟨l, b⟩
        rw [hq] at hl
        simp only [flatten_tree, hq, hl]
  · rcases hq : flatten_list cs with ⟨l, b⟩
    simp [flatten_tree, hq, tree_node_t.is_split]
  · rcases c with _ | ⟨d2, gs2, g2, cs2⟩
    · simp [tree_node_t.is_split] at hc
    · have hsub := flatten_split_is_split d2 gs2 g2 cs2
      rcases hf : flatten (.split d2 gs2 g2 cs2) with ⟨t', b'⟩
      rw [hf] at hsub
      rcases t' with _ | ⟨d3, gs3, g3, cs3⟩
      · simp [tree_node_t.is_split] at hsub
      · have hfl : flatten_list [tree_node_t.split d2 gs2 g2 cs2]
            = ([tree_node_t.split d3 gs3 g3 cs3], b') := by
          simp only [flatten_list, hf]
          simp [flatten_list]
        simp only [flatten, hfl]

/-- Concrete instance of claim C6 with a split-node child: flattening a
root holding one single-split chain. -/
theorem claim6_flatten_idempotent_witness :
    ((tree_node_t.split .vertical no_gaps ⟨0, 0, 10, 10⟩
        [.view 7 no_gaps ⟨0, 0, 10, 10⟩ false ⟨0, 0, 10, 10⟩]).is_split = true)
    ∧ (flatten (.split .horizontal no_gaps ⟨0, 0, 10, 10⟩
        [.split .vertical no_gaps ⟨0, 0, 10, 10⟩
          [.view 7 no_gaps ⟨0, 0, 10, 10⟩ false ⟨0, 0, 10, 10⟩]])).1
      = (flatten (.split .vertical no_gaps ⟨0, 0, 10, 10⟩
          [.view 7 no_gaps ⟨0, 0, 10, 10⟩ false ⟨0, 0, 10, 10⟩])).1 :=
  ⟨by decide,
    (claim6_flatten_idempotent
      (.view 7 no_gaps ⟨0, 0, 10, 10⟩ false ⟨0, 0, 10, 10⟩)
      .horizontal no_gaps ⟨0, 0, 10, 10⟩ []
      (.split .vertical no_gaps ⟨0, 0, 10, 10⟩
        [.view 7 no_gaps ⟨0, 0, 10, 10⟩ false ⟨0, 0, 10, 10⟩])
      (by decide)).2.2⟩

/-- Claim C7: the boolean `flatten_tree` returns is `true` exactly when at
least one view (leaf) node remains in the flattened tree. -/
theorem claim7_flatten_returns_views (T : tree_node_t) :
    (flatten_tree T).2 = has_view (flatten_tree T).1 := by
  cases T with
  | view p gs g f tg => simp [flatten_tree, has_view]
  | split d gs g cs =>
      have hl := flatten_list_returns_has_view cs
      rcases hq : flatten_list cs with ⟨l, b⟩
      rw [hq] at hl
      simp only at hl
      simp only [flatten_tree, hq, has_view]
      exact hl

/-- Claim C2, as stated, fails: inserting a third child into a gap-free
1000-wide horizontal split with two equal 500-wide children (the spec's
own scenario) gives the new, appended child extent 334, and
`334 * 3 > 1000`, so the new child receives strictly more than
`1/(N+1)` of the splittable extent. -/
theorem claim2_counterexample :
    ((add_child .horizontal no_gaps ⟨0, 0, 1000, 500⟩
        [.view 1 no_gaps ⟨0, 0, 500, 500⟩ false ⟨0, 0, 500, 500⟩,
         .view 2 no_gaps ⟨500, 0, 500, 500⟩ false ⟨500, 0, 500, 500⟩]
        (.view 3 no_gaps ⟨0, 0, 100, 100⟩ false ⟨0, 0, 100, 100⟩)
        (-1)).children.map (node_extent .horizontal)).getLast? = some 334
      ∧ ¬ ((334 : Int) * 3
        ≤ calculate_splittable .horizontal no_gaps ⟨0, 0, 1000, 500⟩) := by
  constructor
  · simp [add_child, set_children, set_geometry, child_rects, distribute,
      child_positions, node_extent, tree_node_t.children, tree_node_t.geometry,
      geom_extent, calculate_splittable, axis_lead, get_child_geometry,
      calculate_target_geometry, no_gaps, List.insertIdx]
  · simp [calculate_splittable, no_gaps]

theorem distribute_replicate_bounds (s : Int) (hs : 0 < s) :
    ∀ (k : Nat) (D : Int), ∀ x ∈ distribute D (List.replicate (k + 1) s),
      D / ((k : Int) + 1) ≤ x ∧ x * ((k : Int) + 1) < D + ((k : Int) + 1) := by
  intro k
  induction k with
  | zero =>
      intro D x hx
      simp only [List.replicate, distribute, List.mem_singleton] at hx
      subst hx
      constructor
      · simp
      · simp only [Nat.cast_zero, zero_add, mul_one]
        omega
  | succ k ih =>
      intro D x hx
      have hrepl : List.replicate (k + 1 + 1) s = s :: List.replicate (k + 1) s :=
        List.replicate_succ s (k + 1)
      have hrepl1 : List.replicate (k + 1) s = s :: List.replicate k s :=
        List.replicate_succ s k
      have hsum : (List.replicate (k + 1) s).sum = ((k : Int) + 1) * s := by
        rw [List.sum_replicate, nsmul_eq_mul]
        push_cast
        ring
      set M : Int := (k : Int) + 2 with hM
      have hM0 : 0 < M := by positivity
      have hMne : M ≠ 0 := ne_of_gt hM0
      have hdenom : s + (List.replicate (k + 1) s).sum = M * s := by
        rw [hsum, hM]; ring
      have hhead : D * s / (s + (List.replicate (k + 1) s).sum) = D / M := by
        rw [hdenom, mul_comm M s, mul_comm D s, Int.mul_ediv_mul_of_pos _ _ hs]
      rw [hrepl, hrepl1] at hx
      simp only [distribute] at hx
      rw [← hrepl1] at hx
      rw [hhead] at hx
      set q : Int := D / M with hq
      have hqM : M * q + D % M = D := Int.ediv_add_emod D M
      have hr0 : 0 ≤ D % M := Int.emod_nonneg D hMne
      have hrM : D % M < M := Int.emod_lt_of_pos D hM0
      have hcast : ((k : Int) + 1) + 1 = M := by rw [hM]; ring
      have hgoalcast : (((k + 1 : Nat) : Int) + 1) = M := by
        push_cast
        rw [hM]
        ring
      rcases List.mem_cons.mp hx with hx | hx
      · subst hx
        constructor
        · rw [hgoalcast]
        · rw [hgoalcast]
          have h1 : q * M ≤ D := by
            rw [hq, mul_comm]
            have := Int.ediv_add_emod D M
            omega
          omega
      · obtain ⟨ihl, ihr⟩ := ih (D - q) x hx
        have hql : q ≤ (D - q) / ((k : Int) + 1) := by
          rw [Int.le_ediv_iff_mul_le (by positivity : (0 : Int) < (k : Int) + 1)]
          have : q * ((k : Int) + 1) + q = M * q := by rw [hM]; ring
          omega
        constructor
        · rw [hgoalcast, ← hq]
          exact le_trans (by omega) (le_trans hql ihl)
        · rw [hgoalcast]
          have hx1 : x ≤ q + 1 := by
            have e1 : (q + 2) * ((k : Int) + 1)
                = M * q + 2 * ((k : Int) + 1) - q := by
              rw [hM]; ring
            have hstep : x * ((k : Int) + 1) < (q + 2) * ((k : Int) + 1) := by
              omega
            have := lt_of_mul_lt_mul_right hstep
              (by positivity : (0 : Int) ≤ (k : Int) + 1)
            omega
          have : x * M = x * ((k : Int) + 1) + x := by rw [hM]; ring
          omega

/-- Claim C2 (amended): `add_child` inserts the new child at `index`
(appending when `index = -1`) — the child present at that position in the
new children list is the given node with its newly assigned geometry —
and the child count grows by one, for any valid insertion index.  When
the `N` prior children were equal-sized, every child — the new one
included — receives exactly `1/(N+1)` of the distributable extent within
one rounding unit (`D/(N+1) ≤ extent` and `extent*(N+1) < D + (N+1)`),
so the new child receives at most `1/(N+1)` of it up to one rounding
unit and the existing children shrink to that same equal share.  For
unequal-sized prior children no per-child bound is asserted: the
integer division's deviation can then exceed one rounding unit. -/
theorem claim2_amended (d : split_direction_t) (gs : gap_size_t)
    (g : geometry_t) (cs : List tree_node_t) (c : tree_node_t) (index : Int)
    (s : Int) :
    ((index = -1 ∨ index.toNat ≤ cs.length) →
        (add_child d gs g cs c index).children.length = cs.length + 1)
      ∧ ((index = -1 ∨ index.toNat ≤ cs.length) →
          ∃ r, (add_child d gs g cs c
              index).children[if index = -1 then cs.length else index.toNat]?
            = some (set_geometry c r))
      ∧ (cs ≠ [] → 0 < s → (∀ c' ∈ cs, node_extent d c' = s) →
          (index = -1 ∨ index.toNat ≤ cs.length) →
          ∀ x ∈ (add_child d gs g cs c index).children.map (node_extent d),
            (calculate_splittable d gs g - gs.internal * (cs.length : Int))
                / ((cs.length : Int) + 1) ≤ x
              ∧ x * ((cs.length : Int) + 1)
                < (calculate_splittable d gs g
                    - gs.internal * (cs.length : Int)) + ((cs.length : Int) + 1)) := by
  refine ⟨?_, ?_, ?_⟩
  · intro hidx
    set i : Nat := if index = -1 then cs.length else index.toNat with hi
    have hile : i ≤ cs.length := by
      rcases hidx with h | h
      · simp [hi, h]
      · rcases eq_or_ne index (-1) with h' | h' <;> simp [hi, h', h]
    have hcs' : (cs.insertIdx i c).length = cs.length + 1 :=
      List.length_insertIdx _ _ hile
    have hrl2 : (child_rects d gs g ((cs.map (node_extent d)).insertIdx i
        ((cs.map (node_extent d)).sum / (cs.length : Int)))).length
        = cs.length + 1 := by
      rw [child_rects_length, List.length_insertIdx _ _ (by simpa using hile),
        List.length_map]
    simp only [add_child, tree_node_t.children, ← hi]
    rw [set_children_length _ _ (by rw [hrl2, hcs'])]
    exact hcs'
  · intro hidx
    set i : Nat := if index = -1 then cs.length else index.toNat with hi
    have hile : i ≤ cs.length := by
      rcases hidx with h | h
      · simp [hi, h]
      · rcases eq_or_ne index (-1) with h' | h' <;> simp [hi, h', h]
    have hcs' : (cs.insertIdx i c).length = cs.length + 1 :=
      List.length_insertIdx _ _ hile
    have hrl2 : (child_rects d gs g ((cs.map (node_extent d)).insertIdx i
        ((cs.map (node_extent d)).sum / (cs.length : Int)))).length
        = cs.length + 1 := by
      rw [child_rects_length, List.length_insertIdx _ _ (by simpa using hile),
        List.length_map]
    have hrb : i < (child_rects d gs g ((cs.map (node_extent d)).insertIdx i
        ((cs.map (node_extent d)).sum / (cs.length : Int)))).length := by
      rw [hrl2]; omega
    simp only [add_child, tree_node_t.children, ← hi]
    refine ⟨(child_rects d gs g ((cs.map (node_extent d)).insertIdx i
        ((cs.map (node_extent d)).sum / (cs.length : Int)))).get ⟨i, hrb⟩, ?_⟩
    apply set_children_getElem?
    · rw [List.getElem?_eq_getElem (by omega : i < (cs.insertIdx i c).length)]
      rw [List.getElem_insertIdx_self _ _ _ hile]
    · rw [List.getElem?_eq_getElem hrb]
      simp
  · intro hne hs heq hidx
    have hN0 : 0 < cs.length := List.length_pos.mpr hne
    set i : Nat := if index = -1 then cs.length else index.toNat with hi
    have hile : i ≤ cs.length := by
      rcases hidx with h | h
      · simp [hi, h]
      · rcases eq_or_ne index (-1) with h' | h' <;> simp [hi, h', h]
    have holds : cs.map (node_extent d) = List.replicate cs.length s := by
      rw [List.eq_replicate_iff]
      exact ⟨List.length_map _ _, by
        intro b hb
        rw [List.mem_map] at hb
        obtain ⟨c', hc', hb⟩ := hb
        rw [← hb]
        exact heq c' hc'⟩
    have hNz : ((cs.length : Int)) ≠ 0 := by exact_mod_cast hN0.ne'
    have hw : (cs.map (node_extent d)).sum / (cs.length : Int) = s := by
      rw [holds, List.sum_replicate, nsmul_eq_mul]
      exact Int.mul_ediv_cancel_left s hNz
    have hws : (cs.map (node_extent d)).insertIdx i
        ((cs.map (node_extent d)).sum / (cs.length : Int))
        = List.replicate (cs.length + 1) s := by
      rw [hw, holds]
      rw [List.eq_replicate_iff]
      constructor
      · rw [List.length_insertIdx _ _ (by simpa using hile)]
        simp
      · intro b hb
        rw [List.mem_insertIdx (by simpa using hile)] at hb
        rcases hb with hb | hb
        · exact hb
        · exact List.eq_of_mem_replicate hb
    have hcs' : (cs.insertIdx i c).length = cs.length + 1 :=
      List.length_insertIdx _ _ hile
    have hch : (add_child d gs g cs c index).children
        = set_children (cs.insertIdx i c)
            (child_rects d gs g (List.replicate (cs.length + 1) s)) := by
      simp only [add_child, tree_node_t.children, ← hi, hws]
    intro x hx
    have hD : calculate_splittable d gs g
        - gs.internal * (((List.replicate (cs.length + 1) s).length : Int) - 1)
        = calculate_splittable d gs g - gs.internal * (cs.length : Int) := by
      rw [List.length_replicate]
      push_cast
      ring_nf
    have hmap : (add_child d gs g cs c index).children.map (node_extent d)
        = distribute
            (calculate_splittable d gs g - gs.internal * (cs.length : Int))
            (List.replicate (cs.length + 1) s) := by
      rw [hch]
      have hdl : (distribute
          (calculate_splittable d gs g
            - gs.internal * (((List.replicate (cs.length + 1) s).length : Int) - 1))
          (List.replicate (cs.length + 1) s)).length
          = (cs.insertIdx i c).length := by
        rw [distribute_length, List.length_replicate, hcs']
      obtain ⟨h1, _⟩ := recalc_core d g gs.internal (cs.insertIdx i c) _ _ hdl
      simp only [child_rects]
      rw [h1, hD]
    rw [hmap] at hx
    have hb := distribute_replicate_bounds s hs cs.length
      (calculate_splittable d gs g - gs.internal * (cs.length : Int)) x hx
    exact hb

/-- Concrete instance of the amended claim C2: appending a third child to
a gap-free 1000-wide horizontal split with two equal 500-wide children;
the child count grows to 3, the appended node sits at position 2, and
every resulting extent lies within one rounding unit of `1000/3`. -/
theorem claim2_amended_witness :
    (([(.view 1 no_gaps ⟨0, 0, 500, 500⟩ false ⟨0, 0, 500, 500⟩),
       (.view 2 no_gaps ⟨500, 0, 500, 500⟩ false ⟨500, 0, 500, 500⟩)]
        : List tree_node_t) ≠ [])
    ∧ (0 : Int) < 500
    ∧ (add_child .horizontal no_gaps ⟨0, 0, 1000, 500⟩
        [.view 1 no_gaps ⟨0, 0, 500, 500⟩ false ⟨0, 0, 500, 500⟩,
         .view 2 no_gaps ⟨500, 0, 500, 500⟩ false ⟨500, 0, 500, 500⟩]
        (.view 3 no_gaps ⟨0, 0, 100, 100⟩ false ⟨0, 0, 100, 100⟩)
        (-1)).children.length = 2 + 1
    ∧ (∃ r, (add_child .horizontal no_gaps ⟨0, 0, 1000, 500⟩
          [.view 1 no_gaps ⟨0, 0, 500, 500⟩ false ⟨0, 0, 500, 500⟩,
           .view 2 no_gaps ⟨500, 0, 500, 500⟩ false ⟨500, 0, 500, 500⟩]
          (.view 3 no_gaps ⟨0, 0, 100, 100⟩ false ⟨0, 0, 100, 100⟩)
          (-1)).children[2]?
        = some (set_geometry
            (.view 3 no_gaps ⟨0, 0, 100, 100⟩ false ⟨0, 0, 100, 100⟩) r))
    ∧ (∀ x ∈ (add_child .horizontal no_gaps ⟨0, 0, 1000, 500⟩
          [.view 1 no_gaps ⟨0, 0, 500, 500⟩ false ⟨0, 0, 500, 500⟩,
           .view 2 no_gaps ⟨500, 0, 500, 500⟩ false ⟨500, 0, 500, 500⟩]
          (.view 3 no_gaps ⟨0, 0, 100, 100⟩ false ⟨0, 0, 100, 100⟩)
          (-1)).children.map (node_extent .horizontal),
        (calculate_splittable .horizontal no_gaps ⟨0, 0, 1000, 500⟩
            - no_gaps.internal * ((2 : Nat) : Int)) / (((2 : Nat) : Int) + 1) ≤ x
          ∧ x * (((2 : Nat) : Int) + 1)
            < (calculate_splittable .horizontal no_gaps ⟨0, 0, 1000, 500⟩
                - no_gaps.internal * ((2 : Nat) : Int)) + (((2 : Nat) : Int) + 1)) :=
  ⟨by simp, by decide,
    (claim2_amended .horizontal no_gaps ⟨0, 0, 1000, 500⟩
      [.view 1 no_gaps ⟨0, 0, 500, 500⟩ false ⟨0, 0, 500, 500⟩,
       .view 2 no_gaps ⟨500, 0, 500, 500⟩ false ⟨500, 0, 500, 500⟩]
      (.view 3 no_gaps ⟨0, 0, 100, 100⟩ false ⟨0, 0, 100, 100⟩)
      (-1) 500).1 (Or.inl rfl),
    (claim2_amended .horizontal no_gaps ⟨0, 0, 1000, 500⟩
      [.view 1 no_gaps ⟨0, 0, 500, 500⟩ false ⟨0, 0, 500, 500⟩,
       .view 2 no_gaps ⟨500, 0, 500, 500⟩ false ⟨500, 0, 500, 500⟩]
      (.view 3 no_gaps ⟨0, 0, 100, 100⟩ false ⟨0, 0, 100, 100⟩)
      (-1) 500).2.1 (Or.inl rfl),
    (claim2_amended .horizontal no_gaps ⟨0, 0, 1000, 500⟩
      [.view 1 no_gaps ⟨0, 0, 500, 500⟩ false ⟨0, 0, 500, 500⟩,
       .view 2 no_gaps ⟨500, 0, 500, 500⟩ false ⟨500, 0, 500, 500⟩]
      (.view 3 no_gaps ⟨0, 0, 100, 100⟩ false ⟨0, 0, 100, 100⟩)
      (-1) 500).2.2 (by simp) (by decide) (by decide) (Or.inl rfl)⟩

theorem distribute_exact : ∀ (ws : List Int) (D : Int), ws ≠ [] →
    (∀ w ∈ ws, 0 < w) → (∀ w ∈ ws, ws.sum ∣ D * w) →
    distribute D ws = ws.map (fun w => D * w / ws.sum) := by
  intro ws
  induction ws with
  | nil => intro D hne _ _; exact absurd rfl hne
  | cons w ws' ih =>
      intro D _ hpos hdvd
      cases ws' with
      | nil =>
          have hw : w ≠ 0 := ne_of_gt (hpos w (by simp))
          simp [distribute, Int.mul_ediv_cancel D hw]
      | cons w2 ws'' =>
          have hT'pos : 0 < (w2 :: ws'').sum :=
            List.sum_pos _ (fun x hx => hpos x (List.mem_cons_of_mem w hx))
              (by simp)
          have hTpos : 0 < (w :: w2 :: ws'').sum := by
            rw [List.sum_cons]
            have := hpos w (by simp)
            omega
          have hTne : (w :: w2 :: ws'').sum ≠ 0 := ne_of_gt hTpos
          have hT'ne : (w2 :: ws'').sum ≠ 0 := ne_of_gt hT'pos
          have hs : D * w / (w + (w2 :: ws'').sum)
              = D * w / (w :: w2 :: ws'').sum := by
            conv_rhs => rw [List.sum_cons]
          have hsT : (D * w / (w :: w2 :: ws'').sum) * (w :: w2 :: ws'').sum
              = D * w :=
            Int.ediv_mul_cancel (hdvd w (by simp))
          set s : Int := D * w / (w :: w2 :: ws'').sum with hsdef
          have key : ∀ w' ∈ w2 :: ws'',
              (D - s) * w' / (w2 :: ws'').sum = D * w' / (w :: w2 :: ws'').sum
                ∧ (w2 :: ws'').sum ∣ (D - s) * w' := by
            intro w' hw'
            obtain ⟨k, hk⟩ := hdvd w' (List.mem_cons_of_mem w hw')
            have hval : D * w' / (w :: w2 :: ws'').sum = k := by
              rw [hk, Int.mul_ediv_cancel_left k hTne]
            have hstep : (w :: w2 :: ws'').sum * ((D - s) * w')
                = (w :: w2 :: ws'').sum * ((w2 :: ws'').sum * k) := by
              have h1 : (D - s) * (w :: w2 :: ws'').sum
                  = D * (w2 :: ws'').sum := by
                have h2 : s * (w :: w2 :: ws'').sum = D * w := hsT
                have hsum : (w :: w2 :: ws'').sum = w + (w2 :: ws'').sum :=
                  List.sum_cons
                rw [hsum] at h2 ⊢
                linear_combination (-1 : Int) * h2
              calc (w :: w2 :: ws'').sum * ((D - s) * w')
                  = ((D - s) * (w :: w2 :: ws'').sum) * w' := by ring
                _ = (D * (w2 :: ws'').sum) * w' := by rw [h1]
                _ = (w2 :: ws'').sum * (D * w') := by ring
                _ = (w2 :: ws'').sum * ((w :: w2 :: ws'').sum * k) := by rw [hk]
                _ = (w :: w2 :: ws'').sum * ((w2 :: ws'').sum * k) := by ring
            have hq : (D - s) * w' = (w2 :: ws'').sum * k :=
              mul_left_cancel₀ hTne hstep
            constructor
            · rw [hq, Int.mul_ediv_cancel_left k hT'ne, hval]
            · exact ⟨k, hq⟩
          have hih := ih (D - s) (by simp)
            (fun x hx => hpos x (List.mem_cons_of_mem w hx))
            (fun x hx => (key x hx).2)
          have hmap : (w2 :: ws'').map (fun w' => (D - s) * w' / (w2 :: ws'').sum)
              = (w2 :: ws'').map (fun w' => D * w' / (w :: w2 :: ws'').sum) :=
            List.map_congr_left (fun x hx => (key x hx).1)
          calc distribute D (w :: w2 :: ws'')
              = s :: distribute (D - s) (w2 :: ws'') := by
                simp only [distribute]
                rw [hs]
            _ = s :: (w2 :: ws'').map (fun w' => D * w' / (w :: w2 :: ws'').sum) := by
                rw [hih, hmap]
            _ = (w :: w2 :: ws'').map (fun w' => D * w' / (w :: w2 :: ws'').sum) := by
                simp [hsdef]

/-- Claim C3: `remove_child` on a child of a split node (here identified
by its index, the pure-tree counterpart of the C++ pointer identity)
removes it from the children sequence, hands the detached node back to
the caller unchanged, and resizes the surviving siblings so that the
freed extent is redistributed in proportion to each survivor's
pre-removal size: whenever the proportional shares are exact (the
survivors' total divides each scaled extent), survivor `i` receives
exactly `D * old_i / total`, preserving the survivors' relative
proportions — and in particular not an equal share when their prior
sizes were unequal. -/
theorem claim3_remove_child (d : split_direction_t) (gs : gap_size_t)
    (g : geometry_t) (cs : List tree_node_t) (j : Nat)
    (hj : j < cs.length) (h2 : 2 ≤ cs.length)
    (hpos : ∀ w ∈ (cs.eraseIdx j).map (node_extent d), 0 < w)
    (hdvd : ∀ w ∈ (cs.eraseIdx j).map (node_extent d),
      ((cs.eraseIdx j).map (node_extent d)).sum ∣
        (calculate_splittable d gs g
          - gs.internal * (((cs.eraseIdx j).length : Int) - 1)) * w) :
    ∃ nd, remove_child d gs g cs j = some (cs[j], nd)
      ∧ nd.children.map (node_extent d)
        = ((cs.eraseIdx j).map (node_extent d)).map
            (fun w => (calculate_splittable d gs g
                - gs.internal * (((cs.eraseIdx j).length : Int) - 1)) * w
              / ((cs.eraseIdx j).map (node_extent d)).sum)
      ∧ nd.children.length + 1 = cs.length := by
  have hlen : (cs.eraseIdx j).length + 1 = cs.length :=
    List.length_eraseIdx_add_one hj
  have hne : cs.eraseIdx j ≠ [] := by
    intro h
    rw [h] at hlen
    simp at hlen
    omega
  have hmne : (cs.eraseIdx j).map (node_extent d) ≠ [] := by
    simpa using hne
  refine ⟨.split d gs g (set_children (cs.eraseIdx j)
      (child_rects d gs g ((cs.eraseIdx j).map (node_extent d)))), ?_, ?_, ?_⟩
  · simp only [remove_child, List.getElem?_eq_getElem hj]
  · have hdl : (distribute (calculate_splittable d gs g
        - gs.internal * ((((cs.eraseIdx j).map (node_extent d)).length : Int) - 1))
        ((cs.eraseIdx j).map (node_extent d))).length
        = (cs.eraseIdx j).length := by
      rw [distribute_length, List.length_map]
    obtain ⟨h1, _⟩ := recalc_core d g gs.internal (cs.eraseIdx j) _ _ hdl
    simp only [tree_node_t.children, child_rects]
    rw [h1]
    have hD : (((cs.eraseIdx j).map (node_extent d)).length : Int) - 1
        = ((cs.eraseIdx j).length : Int) - 1 := by
      rw [List.length_map]
    rw [hD]
    exact distribute_exact _ _ hmne hpos hdvd
  · simp only [tree_node_t.children]
    rw [set_children_length _ _ (by rw [child_rects_length, List.length_map])]
    exact hlen

/-- Concrete instance of claim C3: removing the first (100-wide) child of
a gap-free 1000-wide horizontal split with children of widths
100, 200 and 300; the survivors end at widths 400 and 600, in their old
1:1.5 proportion — not equal shares. -/
theorem claim3_remove_child_witness :
    (0 < ([(.view 1 no_gaps ⟨0, 0, 100, 500⟩ false ⟨0, 0, 100, 500⟩),
           (.view 2 no_gaps ⟨100, 0, 200, 500⟩ false ⟨100, 0, 200, 500⟩),
           (.view 3 no_gaps ⟨300, 0, 300, 500⟩ false ⟨300, 0, 300, 500⟩)]
        : List tree_node_t).length)
    ∧ ∃ nd, remove_child .horizontal no_gaps ⟨0, 0, 1000, 500⟩
          [.view 1 no_gaps ⟨0, 0, 100, 500⟩ false ⟨0, 0, 100, 500⟩,
           .view 2 no_gaps ⟨100, 0, 200, 500⟩ false ⟨100, 0, 200, 500⟩,
           .view 3 no_gaps ⟨300, 0, 300, 500⟩ false ⟨300, 0, 300, 500⟩] 0
        = some (([(.view 1 no_gaps ⟨0, 0, 100, 500⟩ false ⟨0, 0, 100, 500⟩),
             (.view 2 no_gaps ⟨100, 0, 200, 500⟩ false ⟨100, 0, 200, 500⟩),
             (.view 3 no_gaps ⟨300, 0, 300, 500⟩ false ⟨300, 0, 300, 500⟩)]
            : List tree_node_t)[0], nd)
        ∧ nd.children.map (node_extent .horizontal)
          = (((([(.view 1 no_gaps ⟨0, 0, 100, 500⟩ false ⟨0, 0, 100, 500⟩),
               (.view 2 no_gaps ⟨100, 0, 200, 500⟩ false ⟨100, 0, 200, 500⟩),
               (.view 3 no_gaps ⟨300, 0, 300, 500⟩ false ⟨300, 0, 300, 500⟩)]
              : List tree_node_t).eraseIdx 0).map
              (node_extent .horizontal)).map
            (fun w => (calculate_splittable .horizontal no_gaps
                  ⟨0, 0, 1000, 500⟩
                - no_gaps.internal
                  * (((([(.view 1 no_gaps ⟨0, 0, 100, 500⟩ false ⟨0, 0, 100, 500⟩),
                       (.view 2 no_gaps ⟨100, 0, 200, 500⟩ false ⟨100, 0, 200, 500⟩),
                       (.view 3 no_gaps ⟨300, 0, 300, 500⟩ false ⟨300, 0, 300, 500⟩)]
                      : List tree_node_t).eraseIdx 0).length : Int) - 1)) * w
              / ((([(.view 1 no_gaps ⟨0, 0, 100, 500⟩ false ⟨0, 0, 100, 500⟩),
                   (.view 2 no_gaps ⟨100, 0, 200, 500⟩ false ⟨100, 0, 200, 500⟩),
                   (.view 3 no_gaps ⟨300, 0, 300, 500⟩ false ⟨300, 0, 300, 500⟩)]
                  : List tree_node_t).eraseIdx 0).map
                  (node_extent .horizontal)).sum))
        ∧ nd.children.length + 1
          = ([(.view 1 no_gaps ⟨0, 0, 100, 500⟩ false ⟨0, 0, 100, 500⟩),
              (.view 2 no_gaps ⟨100, 0, 200, 500⟩ false ⟨100, 0, 200, 500⟩),
              (.view 3 no_gaps ⟨300, 0, 300, 500⟩ false ⟨300, 0, 300, 500⟩)]
             : List tree_node_t).length :=
  ⟨by decide,
    claim3_remove_child .horizontal no_gaps ⟨0, 0, 1000, 500⟩
      [.view 1 no_gaps ⟨0, 0, 100, 500⟩ false ⟨0, 0, 100, 500⟩,
       .view 2 no_gaps ⟨100, 0, 200, 500⟩ false ⟨100, 0, 200, 500⟩,
       .view 3 no_gaps ⟨300, 0, 300, 500⟩ false ⟨300, 0, 300, 500⟩] 0
      (by decide) (by decide) (by decide) (by decide)⟩

end WfTile
